import Mathlib

/-!
Verification of the research-context processing pipeline in
src/applications/affirmations/src/research.py.

Python strings are modelled as List Char (Str).  Python text primitives
(str.split, str.strip, re.sub on whitespace runs and on tag-like substrings)
are modelled character-by-character over the ASCII range; str.lower is
modelled by Char.toLower (ASCII case folding, which is what the inputs of
this pipeline exercise).  The third-party Trafilatura extractor is not part
of the repository; it is modelled as an arbitrary function
Str -> Option Str (None models a failed extraction, as in the Python API).
All definitions are executable so that concrete runs can be checked by
kernel evaluation.
-/

namespace Research

abbrev Str := List Char

/-- Python whitespace (the ASCII characters matched by str.split, str.strip
and the regex class backslash-s). -/
def pyIsSpace (c : Char) : Bool :=
  c = ' ' || c = '\t' || c = '\n' || c = '\r' || c = '\x0b' || c = '\x0c'

/-- Python str.strip(): drop whitespace from both ends. -/
def pyStrip (s : Str) : Str :=
  ((s.dropWhile pyIsSpace).reverse.dropWhile pyIsSpace).reverse

/-- Python str.lower(), ASCII case folding. -/
def lowerStr (s : Str) : Str := s.map Char.toLower

/-- Helper for splitWS: cur holds the characters of the word currently being
read, in reverse order. -/
def splitWSAux (cur : Str) : Str → List Str
  | [] => if cur = [] then [] else [cur.reverse]
  | c :: cs =>
    if pyIsSpace c then
      if cur = [] then splitWSAux [] cs else cur.reverse :: splitWSAux [] cs
    else splitWSAux (c :: cur) cs

/-- Python str.split() with no argument: split on runs of whitespace,
discarding empty words. -/
def splitWS (s : Str) : List Str := splitWSAux [] s

/-- Helper for collapseWS: prevSpace records whether the previous character
was whitespace (so that a run contributes a single space). -/
def collapseWSGo (prevSpace : Bool) : Str → Str
  | [] => []
  | c :: cs =>
    if pyIsSpace c then
      if prevSpace then collapseWSGo true cs else ' ' :: collapseWSGo true cs
    else c :: collapseWSGo false cs

/-- re.sub of one-or-more whitespace by a single space: collapse every run of
whitespace characters to one space. -/
def collapseWS (s : Str) : Str := collapseWSGo false s

/-- re.sub replacing every tag-like substring (an opening angle bracket, one
or more characters none of which is a closing angle bracket, then a closing
angle bracket) by a single space, scanning left to right.  The first
argument is the scanner state: none means outside any candidate tag, some
pending means a candidate tag was opened and pending holds the characters
read since the opening bracket, in reverse order.  The regex engine commits
to a match exactly when the first closing bracket after an opening bracket
is preceded by at least one other character, which is what the state machine
checks; an unclosed candidate at the end of input is emitted verbatim, since
no match can start inside it (there is no closing bracket left). -/
def stripTagsRun : Option Str → Str → Str
  | none, [] => []
  | none, c :: cs =>
    if c = '<' then stripTagsRun (some []) cs else c :: stripTagsRun none cs
  | some pending, [] => '<' :: pending.reverse
  | some pending, c :: cs =>
    if c = '>' then
      if pending = [] then '<' :: '>' :: stripTagsRun none cs
      else ' ' :: stripTagsRun none cs
    else stripTagsRun (some (c :: pending)) cs

def stripTags (s : Str) : Str := stripTagsRun none s

/-- extract_content from research.py.  The Trafilatura call is an external
library function, passed here as the parameter trafilatura_extract; the rest
is the source line by line: empty or whitespace-only input short-circuits to
the empty string, a successful extraction with non-empty stripped text is
returned stripped, and otherwise the fallback strips tag-like substrings,
collapses whitespace and trims. -/
def extract_content (trafilatura_extract : Str → Option Str) (raw : Str) : Str :=
  if raw = [] ∨ pyStrip raw = [] then []
  else
    match trafilatura_extract raw with
    | some extracted =>
      if pyStrip extracted ≠ [] then pyStrip extracted
      else pyStrip (collapseWS (stripTags raw))
    | none => pyStrip (collapseWS (stripTags raw))

/-- set(query.lower().split()) from truncate_with_relevance. -/
def queryWordSet (query : Str) : Finset Str := (splitWS (lowerStr query)).toFinset

/-- score_chunk from truncate_with_relevance: the number of distinct words
shared by the query word set and set(chunk.lower().split()). -/
def score_chunk (query_words : Finset Str) (chunk : Str) : Nat :=
  (query_words ∩ (splitWS (lowerStr chunk)).toFinset).card

/-- The chunk-building while loop of truncate_with_relevance: starting at
position start and advancing by stride, append the slice of size chars at
the current position while the position is inside the text.  The loop is
phrased with explicit fuel so that it is structurally recursive; with
stride at least 1 (which holds whenever max_chars is at least 1) the loop
runs at most length-of-text times, so fuel = length of text makes the fuel
never bind (the Python loop does not terminate when stride = 0). -/
def buildChunksFuel (text : Str) (size stride : Nat) : Nat → Nat → List Str
  | 0, _ => []
  | fuel + 1, start =>
    if start < text.length then
      (text.drop start).take size :: buildChunksFuel text size stride fuel (start + stride)
    else []

/-- stride of the chunk loop: chunk_size - overlap = max_chars - max_chars / 4. -/
def strideOf (max_chars : Nat) : Nat := max_chars - max_chars / 4

/-- The full chunk list built by the while loop of truncate_with_relevance. -/
def chunksOf (text : Str) (max_chars : Nat) : List Str :=
  buildChunksFuel text max_chars (strideOf max_chars) text.length 0

/-- Python max(list, key=k): the first element of the list attaining the
maximal key.  The first argument is the current best (initially the head of
the list); a later element replaces it only with a strictly greater key. -/
def maxByKey (key : α → Nat) : α → List α → α
  | best, [] => best
  | best, x :: xs => maxByKey key (if key best < key x then x else best) xs

/-- truncate_with_relevance from research.py: return text unchanged when it
already fits, otherwise build the overlapping chunks, score them against the
query word set and return the best-scoring chunk (first on ties, as Python
max) cut to max_chars.  The empty-chunks branch mirrors the Python guard
"if not chunks" (it is unreachable when the text is non-empty). -/
def truncate_with_relevance (text query : Str) (max_chars : Nat) : Str :=
  if text.length ≤ max_chars then text
  else
    match chunksOf text max_chars with
    | [] => text.take max_chars
    | c :: cs => (maxByKey (score_chunk (queryWordSet query)) c cs).take max_chars

/-- format_research_result from research.py. -/
def format_research_result (title source content : Str) : Str :=
  "[Source: ".toList ++ source ++ "] ".toList ++ title ++ ": ".toList ++ content

/-- A result record: a dict with an optional "content" entry (none models an
absent key) plus arbitrary caller-owned data, stood in for by a number. -/
structure ResearchResult where
  content : Option Str
  payload : Nat
deriving DecidableEq

/-- str(result.get("content", "")) for a record. -/
def contentOf (r : ResearchResult) : Str := r.content.getD []

/-- The fingerprint computed inside deduplicate_results:
re.sub of whitespace runs by a single space over content[:200].lower().strip(). -/
def fingerprintOf (r : ResearchResult) : Str :=
  collapseWS (pyStrip (lowerStr ((contentOf r).take 200)))

/-- The loop of deduplicate_results: seen is the set of fingerprints already
encountered; a record is kept exactly when its fingerprint is new. -/
def dedupGo (seen : Finset Str) : List ResearchResult → List ResearchResult
  | [] => []
  | r :: rs =>
    if fingerprintOf r ∈ seen then dedupGo seen rs
    else r :: dedupGo (insert (fingerprintOf r) seen) rs

/-- deduplicate_results from research.py. -/
def deduplicate_results (results : List ResearchResult) : List ResearchResult :=
  dedupGo ∅ results

/-- Specification-side restatement of deduplication, following the claimed
behaviour word for word: walk the batch keeping the records whose
fingerprint does not occur among the (full record list of) earlier records.
Used to compare deduplicate_results against the claim. -/
def dedupSpecAux (earlier : List ResearchResult) :
    List ResearchResult → List ResearchResult
  | [] => []
  | r :: rs =>
    if ∀ e ∈ earlier, fingerprintOf e ≠ fingerprintOf r then
      r :: dedupSpecAux (earlier ++ [r]) rs
    else dedupSpecAux (earlier ++ [r]) rs

def dedupSpec (results : List ResearchResult) : List ResearchResult :=
  dedupSpecAux [] results

/-- The double-newline separator used by budget_context. -/
def sep2 : Str := ['\n', '\n']

/-- Python sep.join(list). -/
def joinSep (sep : Str) : List Str → Str
  | [] => []
  | [x] => x
  | x :: y :: xs => x ++ sep ++ joinSep sep (y :: xs)

/-- budget_context from research.py: empty list gives the empty string; if
the raw sum of lengths fits the budget, join everything; otherwise cut each
piece to max_total_chars / count and join. -/
def budget_context (results : List Str) (max_total_chars : Nat) : Str :=
  if results = [] then []
  else if (results.map List.length).sum ≤ max_total_chars then joinSep sep2 results
  else joinSep sep2 (results.map fun r => r.take (max_total_chars / results.length))

/-- process_search_results from research.py: extract, short-circuit on empty
extraction, truncate with relevance at 1000 characters, format. -/
def process_search_results (trafilatura_extract : Str → Option Str)
    (raw_results query source_name : Str) : Str :=
  let extracted := extract_content trafilatura_extract raw_results
  if extracted = [] then []
  else
    format_research_result query source_name
      (truncate_with_relevance extracted query 1000)

/-! ## Helper lemmas -/

theorem strideOf_pos (m : Nat) (h : 0 < m) : 0 < strideOf m := by
  have h4 : m / 4 < m := Nat.div_lt_self h (by norm_num)
  unfold strideOf
  omega

theorem strideOf_le (m : Nat) : strideOf m ≤ m := Nat.sub_le _ _

theorem joinSep_cons_cons (sep x y : Str) (xs : List Str) :
    joinSep sep (x :: y :: xs) = x ++ sep ++ joinSep sep (y :: xs) := rfl

theorem joinSep_length (sep : Str) :
    ∀ l : List Str, l ≠ [] →
      (joinSep sep l).length = (l.map List.length).sum + sep.length * (l.length - 1) := by
  intro l
  induction l with
  | nil => intro h; exact absurd rfl h
  | cons x xs ih =>
    intro _
    cases xs with
    | nil => simp [joinSep]
    | cons y ys =>
      have ihh := ih (by simp)
      rw [joinSep_cons_cons]
      simp only [List.length_append, List.map_cons, List.sum_cons, List.length_cons,
        Nat.add_sub_cancel] at *
      rw [ihh]
      have h1 : sep.length * (ys.length + 1) = sep.length * ys.length + sep.length :=
        Nat.mul_succ _ _
      omega

theorem sum_map_take_le (q : Nat) :
    ∀ rs : List Str, ((rs.map fun r => r.take q).map List.length).sum ≤ rs.length * q := by
  intro rs
  induction rs with
  | nil => simp
  | cons x xs ih =>
    simp only [List.map_cons, List.sum_cons, List.length_cons, List.length_take]
    have h1 : min q x.length ≤ q := min_le_left _ _
    have h3 : (xs.length + 1) * q = xs.length * q + q := Nat.succ_mul _ _
    omega

theorem windowCount_succ (len start stride : Nat) (hs : 0 < stride)
    (hlt : start < len) :
    (len - start + stride - 1) / stride
      = (len - (start + stride) + stride - 1) / stride + 1 := by
  have h1 : len - start + stride - 1 = (len - start - 1) + stride := by omega
  rw [h1, Nat.add_div_right _ hs]
  by_cases h2 : len - start ≤ stride
  · have e0 : len - (start + stride) = 0 := by omega
    rw [e0]
    have e1 : (len - start - 1) / stride = 0 := Nat.div_eq_of_lt (by omega)
    have e2 : (0 + stride - 1) / stride = 0 := Nat.div_eq_of_lt (by omega)
    rw [e1, e2]
  · have e3 : len - (start + stride) + stride - 1 = len - start - 1 := by omega
    rw [e3]

theorem buildChunksFuel_eq (text : Str) (size stride : Nat) (hs : 0 < stride) :
    ∀ (fuel start : Nat), text.length - start ≤ fuel * stride →
      buildChunksFuel text size stride fuel start =
        (List.range ((text.length - start + stride - 1) / stride)).map
          (fun k => (text.drop (start + k * stride)).take size) := by
  intro fuel
  induction fuel with
  | zero =>
    intro start h
    have h0 : text.length - start = 0 := by simpa using h
    have hN : (text.length - start + stride - 1) / stride = 0 := by
      rw [h0]; exact Nat.div_eq_of_lt (by omega)
    simp [buildChunksFuel, hN]
  | succ fuel ih =>
    intro start h
    by_cases hlt : start < text.length
    · have hstep : (fuel + 1) * stride = fuel * stride + stride := Nat.succ_mul _ _
      have hrec := ih (start + stride) (by omega)
      simp only [buildChunksFuel]
      rw [if_pos hlt, hrec,
        windowCount_succ text.length start stride hs hlt,
        List.range_succ_eq_map, List.map_cons, List.map_map]
      congr 1
      · simp
      · apply List.map_congr_left
        intro k _
        simp only [Function.comp_apply]
        have harg : start + (k + 1) * stride = start + stride + k * stride := by
          rw [Nat.succ_mul]; omega
        rw [harg]
    · have h0 : text.length - start = 0 := by omega
      have hN : (text.length - start + stride - 1) / stride = 0 := by
        rw [h0]; exact Nat.div_eq_of_lt (by omega)
      simp only [buildChunksFuel]
      rw [if_neg hlt, hN]
      simp

theorem chunksOf_eq (text : Str) (max_chars : Nat) (h : 0 < max_chars) :
    chunksOf text max_chars =
      (List.range ((text.length + strideOf max_chars - 1) / strideOf max_chars)).map
        (fun k => (text.drop (k * strideOf max_chars)).take max_chars) := by
  have hs := strideOf_pos max_chars h
  have hfuel : text.length - 0 ≤ text.length * strideOf max_chars := by
    have := Nat.le_mul_of_pos_right text.length hs
    omega
  have heq := buildChunksFuel_eq text max_chars (strideOf max_chars) hs text.length 0 hfuel
  simpa [chunksOf] using heq

theorem maxByKey_cons {α : Type} (key : α → Nat) (b x : α) (xs : List α) :
    maxByKey key b (x :: xs) = maxByKey key (if key b < key x then x else b) xs := rfl

/-- Python max with a key function returns the first element attaining the
maximal key: the chosen element splits the list into a strictly-smaller
prefix and a no-larger remainder. -/
theorem maxByKey_stable {α : Type} (key : α → Nat) :
    ∀ (cs : List α) (c : α),
      ∃ l1 l2, c :: cs = l1 ++ maxByKey key c cs :: l2
        ∧ (∀ y ∈ l1, key y < key (maxByKey key c cs))
        ∧ (∀ y ∈ c :: cs, key y ≤ key (maxByKey key c cs)) := by
  intro cs
  induction cs with
  | nil =>
    intro c
    exact ⟨[], [], rfl, by simp, by simp [maxByKey]⟩
  | cons x xs ih =>
    intro c
    by_cases hcx : key c < key x
    · obtain ⟨l1, l2, hdec, hlt, hle⟩ := ih x
      have hb : maxByKey key c (x :: xs) = maxByKey key x xs := by
        rw [maxByKey_cons, if_pos hcx]
      refine ⟨c :: l1, l2, ?_, ?_, ?_⟩
      · rw [hb]
        simpa using congrArg (List.cons c) hdec
      · intro y hy
        rw [hb]
        rcases List.mem_cons.mp hy with h | h
        · subst h
          exact lt_of_lt_of_le hcx (hle x (List.mem_cons_self x xs))
        · exact hlt y h
      · intro y hy
        rw [hb]
        rcases List.mem_cons.mp hy with h | h
        · subst h
          exact le_of_lt (lt_of_lt_of_le hcx (hle x (List.mem_cons_self x xs)))
        · exact hle y h
    · obtain ⟨l1, l2, hdec, hlt, hle⟩ := ih c
      have hb : maxByKey key c (x :: xs) = maxByKey key c xs := by
        rw [maxByKey_cons, if_neg hcx]
      cases l1 with
      | nil =>
        simp only [List.nil_append] at hdec
        injection hdec with h1 h2
        refine ⟨[], x :: xs, ?_, by simp, ?_⟩
        · rw [hb, ← h1]
          simp
        · intro y hy
          rw [hb]
          rcases List.mem_cons.mp hy with h | h
          · rw [h]
            exact hle c (List.mem_cons_self c xs)
          rcases List.mem_cons.mp h with h3 | h3
          · subst h3
            exact le_trans (Nat.le_of_not_lt hcx) (hle c (List.mem_cons_self c xs))
          · exact hle y (List.mem_cons_of_mem c h3)
      | cons w t =>
        simp only [List.cons_append] at hdec
        injection hdec with hh ht
        have hcr : key c < key (maxByKey key c xs) := by
          have := hlt w (List.mem_cons_self w t)
          rwa [← hh] at this
        refine ⟨c :: x :: t, l2, ?_, ?_, ?_⟩
        · rw [hb]
          simp only [List.cons_append]
          exact congrArg (fun l => c :: x :: l) ht
        · intro y hy
          rw [hb]
          rcases List.mem_cons.mp hy with h | h
          · subst h; exact hcr
          rcases List.mem_cons.mp h with h3 | h3
          · subst h3
            exact lt_of_le_of_lt (Nat.le_of_not_lt hcx) hcr
          · exact hlt y (List.mem_cons_of_mem w h3)
        · intro y hy
          rw [hb]
          rcases List.mem_cons.mp hy with h | h
          · rw [h]
            exact hle c (List.mem_cons_self c xs)
          rcases List.mem_cons.mp h with h3 | h3
          · subst h3
            exact le_trans (Nat.le_of_not_lt hcx) (hle c (List.mem_cons_self c xs))
          · exact hle y (List.mem_cons_of_mem c h3)

/-! ## Claim theorems: truncation bounds -/

/-- Claim C1: for every text, every query and every positive max_chars, the
result of truncate_with_relevance has length at most max_chars. -/
theorem truncate_result_length_le (text query : Str) (max_chars : Nat)
    (_hpos : 0 < max_chars) :
    (truncate_with_relevance text query max_chars).length ≤ max_chars := by
  unfold truncate_with_relevance
  by_cases h : text.length ≤ max_chars
  · rw [if_pos h]; exact h
  · rw [if_neg h]
    cases hc : chunksOf text max_chars with
    | nil => simp [List.length_take]
    | cons c cs => simp [List.length_take]

theorem truncate_result_length_le_witness :
    0 < 3 ∧ (truncate_with_relevance "abcdefgh".toList "x".toList 3).length ≤ 3 :=
  ⟨by decide, truncate_result_length_le "abcdefgh".toList "x".toList 3 (by decide)⟩

/-- Claim C7: text that already fits into max_chars is returned unchanged. -/
theorem truncate_short_identity (text query : Str) (max_chars : Nat)
    (h : text.length ≤ max_chars) :
    truncate_with_relevance text query max_chars = text := by
  unfold truncate_with_relevance
  rw [if_pos h]

theorem truncate_short_identity_witness :
    ("ab".toList).length ≤ 5 ∧ truncate_with_relevance "ab".toList "q".toList 5 = "ab".toList :=
  ⟨by decide, truncate_short_identity "ab".toList "q".toList 5 (by decide)⟩

/-- Claim C10: for positive max_chars the value returned by
truncate_with_relevance is a contiguous slice of the input text. -/
theorem truncate_returns_substring (text query : Str) (max_chars : Nat)
    (hpos : 0 < max_chars) :
    ∃ pre post, text = pre ++ truncate_with_relevance text query max_chars ++ post := by
  by_cases h : text.length ≤ max_chars
  · refine ⟨[], [], ?_⟩
    simp [truncate_with_relevance, h]
  · cases hc : chunksOf text max_chars with
    | nil =>
      have htr : truncate_with_relevance text query max_chars = text.take max_chars := by
        unfold truncate_with_relevance
        rw [if_neg h, hc]
      refine ⟨[], text.drop max_chars, ?_⟩
      rw [htr]
      simp [List.take_append_drop]
    | cons c cs =>
      have htr : truncate_with_relevance text query max_chars
          = (maxByKey (score_chunk (queryWordSet query)) c cs).take max_chars := by
        unfold truncate_with_relevance
        rw [if_neg h, hc]
      have hmem : maxByKey (score_chunk (queryWordSet query)) c cs
          ∈ chunksOf text max_chars := by
        obtain ⟨l1, l2, hdec, _, _⟩ := maxByKey_stable (score_chunk (queryWordSet query)) cs c
        rw [hc, hdec]
        exact List.mem_append_right l1 (List.mem_cons_self _ _)
      rw [chunksOf_eq text max_chars hpos] at hmem
      obtain ⟨k, _, hkeq⟩ := List.mem_map.mp hmem
      refine ⟨text.take (k * strideOf max_chars),
              (text.drop (k * strideOf max_chars)).drop max_chars, ?_⟩
      rw [htr, ← hkeq, List.take_take, min_self, List.append_assoc,
        List.take_append_drop, List.take_append_drop]

theorem truncate_returns_substring_witness :
    0 < 3 ∧ ∃ pre post, "abcdefgh".toList
      = pre ++ truncate_with_relevance "abcdefgh".toList "ab".toList 3 ++ post :=
  ⟨by decide, truncate_returns_substring "abcdefgh".toList "ab".toList 3 (by decide)⟩

/-- Claim C3: when the text is longer than max_chars (positive), the chunk
list consists of the windows starting at the multiples of
stride = max_chars - max_chars / 4 that fall inside the text; every text
position is covered by some window; and the returned value is the
highest-scoring window, earliest on ties, cut to max_chars. -/
theorem truncate_windows_spec (text query : Str) (max_chars : Nat)
    (hpos : 0 < max_chars) (hlen : max_chars < text.length) :
    chunksOf text max_chars
      = (List.range ((text.length + strideOf max_chars - 1) / strideOf max_chars)).map
          (fun k => (text.drop (k * strideOf max_chars)).take max_chars)
    ∧ (∀ i, i < text.length →
        ∃ k, k * strideOf max_chars < text.length
          ∧ k * strideOf max_chars ≤ i ∧ i < k * strideOf max_chars + max_chars)
    ∧ (∃ best l1 l2,
        chunksOf text max_chars = l1 ++ best :: l2
        ∧ (∀ ch ∈ chunksOf text max_chars,
            score_chunk (queryWordSet query) ch ≤ score_chunk (queryWordSet query) best)
        ∧ (∀ ch ∈ l1,
            score_chunk (queryWordSet query) ch < score_chunk (queryWordSet query) best)
        ∧ truncate_with_relevance text query max_chars = best.take max_chars) := by
  have hs := strideOf_pos max_chars hpos
  refine ⟨chunksOf_eq text max_chars hpos, ?_, ?_⟩
  · intro i hi
    have hdm : strideOf max_chars * (i / strideOf max_chars) + i % strideOf max_chars = i :=
      Nat.div_add_mod i (strideOf max_chars)
    have hml : i % strideOf max_chars < strideOf max_chars := Nat.mod_lt i hs
    have hsm : strideOf max_chars ≤ max_chars := strideOf_le max_chars
    have hmul : i / strideOf max_chars * strideOf max_chars
        = strideOf max_chars * (i / strideOf max_chars) := Nat.mul_comm _ _
    exact ⟨i / strideOf max_chars, by omega, by omega, by omega⟩
  · have hN : 1 ≤ (text.length + strideOf max_chars - 1) / strideOf max_chars := by
      rw [Nat.le_div_iff_mul_le hs]
      omega
    cases hc : chunksOf text max_chars with
    | nil =>
      rw [chunksOf_eq text max_chars hpos] at hc
      rw [List.map_eq_nil_iff, List.range_eq_nil] at hc
      omega
    | cons c cs =>
      obtain ⟨l1, l2, hdec, hlt, hle⟩ :=
        maxByKey_stable (score_chunk (queryWordSet query)) cs c
      refine ⟨maxByKey (score_chunk (queryWordSet query)) c cs, l1, l2, ?_, ?_, ?_, ?_⟩
      · exact hdec
      · intro ch hch
        exact hle ch hch
      · exact hlt
      · unfold truncate_with_relevance
        rw [if_neg (by omega), hc]

theorem truncate_windows_spec_witness :
    0 < 4 ∧ 4 < ("xy ab xy".toList).length
    ∧ (chunksOf "xy ab xy".toList 4
        = (List.range ((("xy ab xy".toList).length + strideOf 4 - 1) / strideOf 4)).map
            (fun k => (("xy ab xy".toList).drop (k * strideOf 4)).take 4)
      ∧ (∀ i, i < ("xy ab xy".toList).length →
          ∃ k, k * strideOf 4 < ("xy ab xy".toList).length
            ∧ k * strideOf 4 ≤ i ∧ i < k * strideOf 4 + 4)
      ∧ (∃ best l1 l2,
          chunksOf "xy ab xy".toList 4 = l1 ++ best :: l2
          ∧ (∀ ch ∈ chunksOf "xy ab xy".toList 4,
              score_chunk (queryWordSet "ab".toList) ch
                ≤ score_chunk (queryWordSet "ab".toList) best)
          ∧ (∀ ch ∈ l1,
              score_chunk (queryWordSet "ab".toList) ch
                < score_chunk (queryWordSet "ab".toList) best)
          ∧ truncate_with_relevance "xy ab xy".toList "ab".toList 4 = best.take 4)) :=
  ⟨by decide, by decide,
   truncate_windows_spec "xy ab xy".toList "ab".toList 4 (by decide) (by decide)⟩

/-! ## Claim theorems: context budgeting -/

/-- Claim C2, counterexample: the budgeted concatenation can exceed
max_total_chars, because the double-newline separators are not counted.
Here the two pieces sum to exactly 6 characters, so they are joined
unmodified, and the separator pushes the total to 8 > 6. -/
theorem budget_context_exceeds_budget_cex :
    ¬ ((budget_context [['a', 'a', 'a'], ['b', 'b', 'b']] 6).length ≤ 6) := by decide

/-- Claim C2 as amended: the result of budget_context has length at most
max_total_chars plus the two separator characters per joint, i.e. at most
max_total_chars + 2 * (count - 1). -/
theorem budget_context_length_le_with_separators :
    ∀ (results : List Str) (max_total_chars : Nat),
      (budget_context results max_total_chars).length
        ≤ max_total_chars + 2 * (results.length - 1) := by
  intro rs m
  unfold budget_context
  by_cases h0 : rs = []
  · simp [h0]
  · rw [if_neg h0]
    by_cases h1 : (rs.map List.length).sum ≤ m
    · rw [if_pos h1, joinSep_length sep2 rs h0]
      have hsep : sep2.length = 2 := rfl
      rw [hsep]
      omega
    · rw [if_neg h1, joinSep_length sep2 _ (by simp [h0])]
      have hsep : sep2.length = 2 := rfl
      rw [hsep]
      have hsum := sum_map_take_le (m / rs.length) rs
      have hdiv : rs.length * (m / rs.length) ≤ m := by
        calc rs.length * (m / rs.length) = m / rs.length * rs.length := Nat.mul_comm _ _
        _ ≤ m := Nat.div_mul_le_self m rs.length
      simp only [List.length_map]
      omega

/-- Claim C6: budget_context joins everything unmodified when the raw sum of
lengths fits, cuts every piece to the equal share max_total_chars / count
otherwise, returns the empty string on the empty list, and on two
1000-character pieces with a budget of 600 produces two 300-character chunks
joined by the double newline. -/
theorem budget_context_spec :
    (∀ m, budget_context [] m = [])
    ∧ (∀ (rs : List Str) (m : Nat), rs ≠ [] → (rs.map List.length).sum ≤ m →
        budget_context rs m = joinSep sep2 rs)
    ∧ (∀ (rs : List Str) (m : Nat), rs ≠ [] → m < (rs.map List.length).sum →
        budget_context rs m = joinSep sep2 (rs.map fun r => r.take (m / rs.length)))
    ∧ budget_context [List.replicate 1000 'a', List.replicate 1000 'b'] 600
        = List.replicate 300 'a' ++ sep2 ++ List.replicate 300 'b' := by
  refine ⟨?_, ?_, ?_, ?_⟩
  · intro m; simp [budget_context]
  · intro rs m h0 h1
    unfold budget_context
    rw [if_neg h0, if_pos h1]
  · intro rs m h0 h1
    unfold budget_context
    rw [if_neg h0, if_neg (Nat.not_le.mpr h1)]
  · unfold budget_context
    have hsum : (([List.replicate 1000 'a', List.replicate 1000 'b'] : List Str).map
        List.length).sum = 2000 := by
      simp only [List.map_cons, List.map_nil, List.length_replicate, List.sum_cons,
        List.sum_nil]
      norm_num
    rw [if_neg (List.cons_ne_nil _ _), if_neg (by rw [hsum]; omega)]
    simp only [List.map_cons, List.map_nil, List.length_cons, List.length_nil]
    norm_num [List.take_replicate]
    rw [joinSep_cons_cons, List.append_assoc]
    rfl

theorem budget_context_spec_witness :
    ([['a', 'a'], ['b', 'b']] : List Str) ≠ []
    ∧ 2 < (([['a', 'a'], ['b', 'b']] : List Str).map List.length).sum
    ∧ budget_context [['a', 'a'], ['b', 'b']] 2
        = joinSep sep2 (([['a', 'a'], ['b', 'b']] : List Str).map
            fun r => r.take (2 / ([['a', 'a'], ['b', 'b']] : List Str).length)) :=
  ⟨by decide, by decide,
   budget_context_spec.2.2.1 [['a', 'a'], ['b', 'b']] 2 (by decide) (by decide)⟩

/-! ## Deduplication lemmas -/

theorem dedupGo_eq_dedupSpecAux :
    ∀ (rs : List ResearchResult) (earlier : List ResearchResult),
      dedupGo ((earlier.map fingerprintOf).toFinset) rs = dedupSpecAux earlier rs := by
  intro rs
  induction rs with
  | nil => intro earlier; rfl
  | cons r rs ih =>
    intro earlier
    by_cases hmem : fingerprintOf r ∈ (earlier.map fingerprintOf).toFinset
    · have hnotall : ¬ (∀ e ∈ earlier, fingerprintOf e ≠ fingerprintOf r) := by
        simp only [List.mem_toFinset, List.mem_map] at hmem
        obtain ⟨e, he, hfe⟩ := hmem
        intro hall
        exact hall e he hfe
      have hseen : ((earlier ++ [r]).map fingerprintOf).toFinset
          = (earlier.map fingerprintOf).toFinset := by
        ext a
        simp only [List.map_append, List.toFinset_append, Finset.mem_union, List.map_cons,
          List.map_nil, List.toFinset_cons, List.toFinset_nil, insert_emptyc_eq,
          Finset.mem_singleton]
        constructor
        · rintro (ha | ha)
          · exact ha
          · rw [ha]; exact hmem
        · intro ha; exact Or.inl ha
      simp only [dedupGo, if_pos hmem, dedupSpecAux, if_neg hnotall]
      rw [← ih (earlier ++ [r]), hseen]
    · have hall : ∀ e ∈ earlier, fingerprintOf e ≠ fingerprintOf r := by
        intro e he heq
        exact hmem (by
          simp only [List.mem_toFinset, List.mem_map]
          exact ⟨e, he, heq⟩)
      have hseen : ((earlier ++ [r]).map fingerprintOf).toFinset
          = insert (fingerprintOf r) ((earlier.map fingerprintOf).toFinset) := by
        ext a
        simp only [List.map_append, List.toFinset_append, Finset.mem_union, List.map_cons,
          List.map_nil, List.toFinset_cons, List.toFinset_nil, insert_emptyc_eq,
          Finset.mem_singleton, Finset.mem_insert]
        tauto
      simp only [dedupGo, if_neg hmem, dedupSpecAux, if_pos hall]
      rw [← ih (earlier ++ [r]), hseen]

theorem dedupGo_sublist :
    ∀ (rs : List ResearchResult) (seen : Finset Str),
      List.Sublist (dedupGo seen rs) rs := by
  intro rs
  induction rs with
  | nil => intro seen; simp [dedupGo]
  | cons r rs ih =>
    intro seen
    by_cases hmem : fingerprintOf r ∈ seen
    · simp only [dedupGo, if_pos hmem]
      exact (ih seen).cons r
    · simp only [dedupGo, if_neg hmem]
      exact (ih _).cons₂ r

theorem mem_dedupGo_not_seen :
    ∀ (rs : List ResearchResult) (seen : Finset Str) (x : ResearchResult),
      x ∈ dedupGo seen rs → fingerprintOf x ∉ seen := by
  intro rs
  induction rs with
  | nil => intro seen x hx; simp [dedupGo] at hx
  | cons r rs ih =>
    intro seen x hx
    by_cases hmem : fingerprintOf r ∈ seen
    · simp only [dedupGo, if_pos hmem] at hx
      exact ih seen x hx
    · simp only [dedupGo, if_neg hmem] at hx
      rcases List.mem_cons.mp hx with h | h
      · rw [h]; exact hmem
      · intro hc
        exact ih _ x h (Finset.mem_insert_of_mem hc)

theorem dedupGo_pairwise :
    ∀ (rs : List ResearchResult) (seen : Finset Str),
      (dedupGo seen rs).Pairwise (fun a b => fingerprintOf a ≠ fingerprintOf b) := by
  intro rs
  induction rs with
  | nil => intro seen; simp [dedupGo]
  | cons r rs ih =>
    intro seen
    by_cases hmem : fingerprintOf r ∈ seen
    · simp only [dedupGo, if_pos hmem]
      exact ih seen
    · simp only [dedupGo, if_neg hmem]
      refine List.Pairwise.cons ?_ (ih _)
      intro b hb heq
      exact mem_dedupGo_not_seen rs _ b hb (heq ▸ Finset.mem_insert_self _ _)

theorem pairwise_fp_countP_le_one :
    ∀ l : List ResearchResult,
      l.Pairwise (fun a b => fingerprintOf a ≠ fingerprintOf b) →
      l.countP (fun r => decide (fingerprintOf r = [])) ≤ 1 := by
  intro l
  induction l with
  | nil => intro _; simp
  | cons a l ih =>
    intro hp
    obtain ⟨hhead, htail⟩ := List.pairwise_cons.mp hp
    rw [List.countP_cons]
    by_cases ha : fingerprintOf a = []
    · have hzero : l.countP (fun r => decide (fingerprintOf r = [])) = 0 := by
        rw [List.countP_eq_zero]
        intro b hb
        simp only [decide_eq_true_eq]
        intro hb0
        exact hhead b hb (ha.trans hb0.symm)
      simp [hzero, ha]
    · have hfa : ¬ (decide (fingerprintOf a = []) = true) := by simp [ha]
      rw [if_neg hfa]
      simpa using ih htail

theorem dedupGo_eq_self :
    ∀ (l : List ResearchResult) (seen : Finset Str),
      (∀ x ∈ l, fingerprintOf x ∉ seen) →
      l.Pairwise (fun a b => fingerprintOf a ≠ fingerprintOf b) →
      dedupGo seen l = l := by
  intro l
  induction l with
  | nil => intro seen _ _; rfl
  | cons r l ih =>
    intro seen hseen hp
    have hmem : fingerprintOf r ∉ seen := hseen r (List.mem_cons_self r l)
    simp only [dedupGo, if_neg hmem]
    congr 1
    apply ih
    · intro x hx hins
      rcases Finset.mem_insert.mp hins with h | h
      · exact (List.pairwise_cons.mp hp).1 x hx h.symm
      · exact hseen x (List.mem_cons_of_mem r hx) h
    · exact (List.pairwise_cons.mp hp).2

/-! ## Claim theorems: deduplication -/

/-- Claim C4: deduplicate_results keeps exactly the records whose
fingerprint (normalized first 200 characters of their content, with empty
or absent content treated as the empty string) does not occur among earlier
records, preserving order; empty and absent content fingerprints to the
empty string, and at most one record with empty fingerprint survives. -/
theorem deduplicate_first_occurrence_spec (results : List ResearchResult) :
    deduplicate_results results = dedupSpec results
    ∧ List.Sublist (deduplicate_results results) results
    ∧ (∀ r : ResearchResult, r.content = none ∨ r.content = some [] → fingerprintOf r = [])
    ∧ (deduplicate_results results).countP (fun r => decide (fingerprintOf r = [])) ≤ 1 := by
  refine ⟨?_, dedupGo_sublist results ∅, ?_, ?_⟩
  · have h := dedupGo_eq_dedupSpecAux results []
    simpa [deduplicate_results, dedupSpec] using h
  · intro r h
    rcases h with h | h <;>
      simp [fingerprintOf, contentOf, h, lowerStr, pyStrip, collapseWS, collapseWSGo]
  · exact pairwise_fp_countP_le_one _ (dedupGo_pairwise results ∅)

theorem deduplicate_first_occurrence_spec_witness :
    deduplicate_results [⟨none, 0⟩, ⟨some [], 1⟩] = dedupSpec [⟨none, 0⟩, ⟨some [], 1⟩]
    ∧ fingerprintOf ⟨none, 7⟩ = [] :=
  ⟨(deduplicate_first_occurrence_spec [⟨none, 0⟩, ⟨some [], 1⟩]).1,
   (deduplicate_first_occurrence_spec []).2.2.1 ⟨none, 7⟩ (Or.inl rfl)⟩

/-- Claim C5: deduplication is idempotent. -/
theorem deduplicate_idempotent (results : List ResearchResult) :
    deduplicate_results (deduplicate_results results) = deduplicate_results results := by
  unfold deduplicate_results
  apply dedupGo_eq_self
  · intro x _
    exact Finset.not_mem_empty _
  · exact dedupGo_pairwise results ∅

/-! ## Claim theorems: extraction and pipeline composition -/

/-- Claim C8: extract_content (total by construction, for every extractor
model) returns the empty string on empty or whitespace-only input, and
returns the empty string when both the structured extraction pass and the
tag-stripping fallback yield nothing. -/
theorem extract_content_empty_cases :
    ∀ (tf : Str → Option Str) (raw : Str),
      ((raw = [] ∨ pyStrip raw = []) → extract_content tf raw = [])
      ∧ ((∀ e, tf raw = some e → pyStrip e = []) →
          pyStrip (collapseWS (stripTags raw)) = [] →
          extract_content tf raw = []) := by
  intro tf raw
  constructor
  · intro h
    unfold extract_content
    rw [if_pos h]
  · intro hext hfb
    unfold extract_content
    by_cases h0 : raw = [] ∨ pyStrip raw = []
    · rw [if_pos h0]
    · rw [if_neg h0]
      cases htf : tf raw with
      | none => exact hfb
      | some e =>
        have he : pyStrip e = [] := hext e htf
        simp [he, hfb]

theorem extract_content_empty_cases_witness :
    (([' '] : Str) = [] ∨ pyStrip [' '] = [])
    ∧ extract_content (fun _ => none) [' '] = []
    ∧ extract_content (fun _ => none) ['<', 'a', '>'] = [] :=
  ⟨Or.inr (by decide),
   (extract_content_empty_cases (fun _ => none) [' ']).1 (Or.inr (by decide)),
   (extract_content_empty_cases (fun _ => none) ['<', 'a', '>']).2
     (fun e he => nomatch he) (by decide)⟩

/-- Claim C9: process_search_results returns the empty string exactly when
extraction yields the empty string (in particular on empty raw input), and
otherwise formats the relevance-truncated extraction with source and query
attribution. -/
theorem process_search_results_spec :
    ∀ (tf : Str → Option Str) (raw query source : Str),
      (process_search_results tf raw query source = [] ↔ extract_content tf raw = [])
      ∧ (extract_content tf raw ≠ [] →
          process_search_results tf raw query source
            = format_research_result query source
                (truncate_with_relevance (extract_content tf raw) query 1000))
      ∧ process_search_results tf [] query source = [] := by
  intro tf raw query source
  have hfmt : ∀ t s c : Str, format_research_result t s c ≠ [] := by
    intro t s c
    unfold format_research_result
    intro h
    obtain ⟨h1, -⟩ := List.append_eq_nil.mp h
    obtain ⟨h2, -⟩ := List.append_eq_nil.mp h1
    obtain ⟨h3, -⟩ := List.append_eq_nil.mp h2
    obtain ⟨h4, -⟩ := List.append_eq_nil.mp h3
    obtain ⟨h5, -⟩ := List.append_eq_nil.mp h4
    exact absurd h5 (by decide)
  refine ⟨?_, ?_, ?_⟩
  · constructor
    · intro h
      by_contra hne
      simp only [process_search_results] at h
      rw [if_neg hne] at h
      exact hfmt query source _ h
    · intro h
      simp [process_search_results, h]
  · intro hne
    simp only [process_search_results]
    rw [if_neg hne]
  · have hraw : extract_content tf [] = [] := by
      unfold extract_content
      rw [if_pos (Or.inl rfl)]
    simp [process_search_results, hraw]

theorem process_search_results_spec_witness :
    extract_content some "hello".toList ≠ []
    ∧ process_search_results some "hello".toList "hi".toList "src".toList
        = format_research_result "hi".toList "src".toList
            (truncate_with_relevance (extract_content some "hello".toList)
              "hi".toList 1000) :=
  ⟨by decide,
   (process_search_results_spec some "hello".toList "hi".toList "src".toList).2.1
     (by decide)⟩

end Research
